import Mathlib

/-!
Shallow embedding of the `batt` truth-table generator: the token model
(`src/token.rs`), the logos-derived lexer, the shunting-yard parser
(`src/parser.rs`), the RPN evaluator (`src/boolean_expression.rs`), the
bit-string abstraction (`src/bitstring_trait.rs`) and the driver loop
(`src/main.rs`), together with theorems settling the specification claims.
-/

namespace Batt

/-- The token alphabet of `src/token.rs` (`enum Token`). -/
inductive Token where
  | NOT
  | AND
  | OR
  | XOR
  | LPAREN
  | RPAREN
  | IDENT
  | Error
deriving DecidableEq, Repr

/-- The discriminant values assigned in `src/token.rs` (`NOT = 0, AND = 1,
OR = 2, XOR = 3`, then the remaining variants continue `4..`); the derived
`PartialOrd` compares these. -/
def Token.disc : Token → Nat
  | .NOT => 0
  | .AND => 1
  | .OR => 2
  | .XOR => 3
  | .LPAREN => 4
  | .RPAREN => 5
  | .IDENT => 6
  | .Error => 7

/-- The derived `<=` on `Token` (discriminant comparison), used by the
parser's operator-stack reduction (`*top <= token`). -/
def tokLe (a b : Token) : Bool := a.disc ≤ b.disc

/-- `Token::is_binary_operator` from `src/token.rs`. -/
def Token.is_binary_operator : Token → Bool
  | .AND | .OR | .XOR => true
  | _ => false

/-- A half-open byte span `[start, stop)` into the source text
(`logos::Span`). -/
structure Span where
  start : Nat
  stop : Nat
deriving DecidableEq, Repr

/-- The whitespace class skipped by the lexer (regex `[ \t\n\f]+`). -/
def isWs (c : Char) : Bool :=
  c == ' ' || c == '\t' || c == '\n' || c == Char.ofNat 12

theorem length_dropWhile_le (p : Char → Bool) (l : List Char) :
    (l.dropWhile p).length ≤ l.length := by
  induction l with
  | nil => simp [List.dropWhile]
  | cons a l ih =>
    simp only [List.dropWhile]
    split
    · exact Nat.le_succ_of_le ih
    · exact Nat.le_refl _

/-- The scanning loop of the logos-derived lexer over `Token`, written with
a structural fuel argument purely so that it computes by reduction; each
step consumes at least one character, so any `fuel > cs.length` gives the
lexer's real (fuel-independent) behaviour, which `lex` below instantiates. -/
def lexAux : Nat → List Char → Nat → List (Token × Span)
  | 0, _, _ => []
  | _ + 1, [], _ => []
  | fuel + 1, c :: rest, i =>
    if c.isAlpha then
      let n := 1 + (rest.takeWhile Char.isAlpha).length
      (Token.IDENT, ⟨i, i + n⟩) :: lexAux fuel (rest.dropWhile Char.isAlpha) (i + n)
    else if isWs c then
      let n := 1 + (rest.takeWhile isWs).length
      lexAux fuel (rest.dropWhile isWs) (i + n)
    else if c = '!' then (Token.NOT, ⟨i, i + 1⟩) :: lexAux fuel rest (i + 1)
    else if c = '^' then (Token.XOR, ⟨i, i + 1⟩) :: lexAux fuel rest (i + 1)
    else if c = '(' then (Token.LPAREN, ⟨i, i + 1⟩) :: lexAux fuel rest (i + 1)
    else if c = ')' then (Token.RPAREN, ⟨i, i + 1⟩) :: lexAux fuel rest (i + 1)
    else if c = '&' then
      if rest.head? = some '&' then (Token.AND, ⟨i, i + 2⟩) :: lexAux fuel rest.tail (i + 2)
      else (Token.Error, ⟨i, i + 1⟩) :: lexAux fuel rest (i + 1)
    else if c = '|' then
      if rest.head? = some '|' then (Token.OR, ⟨i, i + 2⟩) :: lexAux fuel rest.tail (i + 2)
      else (Token.Error, ⟨i, i + 1⟩) :: lexAux fuel rest (i + 1)
    else (Token.Error, ⟨i, i + 1⟩) :: lexAux fuel rest (i + 1)

/-- The logos-derived lexer over `Token`: longest-match scanning of
identifiers (`[a-zA-Z]+`), the operator symbols `!`, `&&`, `||`, `^`, the
parentheses, whitespace skipping, and an `Error` token for anything else
(for a lone `&` or `|` the error span covers the single character). -/
def lex (cs : List Char) (i : Nat) : List (Token × Span) :=
  lexAux (cs.length + 1) cs i

/-- `BooleanExpressionToken` from `src/boolean_expression.rs`. -/
inductive BooleanExpressionToken where
  | IDENT (id : Nat)
  | OPERATOR (t : Token)
  | RESULT (v : Nat)
deriving DecidableEq, Repr

/-- `get_bit` of the `bitstring_impl!` macro in `src/bitstring_trait.rs`,
for an unsigned integer type of bit width `w`:
`if pos < bits { Some((x >> pos) & 1) } else { None }`. -/
def get_bit (w x pos : Nat) : Option Nat :=
  if pos < w then some ((x >>> pos) &&& 1) else none

/-- One `stack.pop().unwrap()` of the evaluator: `none` models the panic on
an empty stack; a popped non-`RESULT` token yields `0` (the `_ => 0` arm). -/
def popResult : List BooleanExpressionToken → Option (Nat × List BooleanExpressionToken)
  | [] => none
  | t :: rest =>
    some (match t with | .RESULT v => v | _ => 0, rest)

/-- One iteration of the evaluator's `for token in &self.exp` loop
(`BooleanExpression::evaluate`); the stack is held with its top at the
head. `vc` is `variable_names.len()`, `w` the bit width of the input,
`x` the assignment. `none` models a panic (`unwrap` of an absent bit or of
a pop from an empty stack); the subtraction `vc - 1 - id` underflows (and
panics) whenever `id ≥ vc`, which `id < vc` guards. -/
def evalStep (vc w x : Nat) (stack : List BooleanExpressionToken) :
    BooleanExpressionToken → Option (List BooleanExpressionToken)
  | .IDENT id =>
    if id < vc then
      (get_bit w x (vc - 1 - id)).map (fun b => .RESULT b :: stack)
    else none
  | .OPERATOR Token.AND => do
    let (lhs, s1) ← popResult stack
    let (rhs, s2) ← popResult s1
    pure (.RESULT (lhs &&& rhs) :: s2)
  | .OPERATOR Token.OR => do
    let (lhs, s1) ← popResult stack
    let (rhs, s2) ← popResult s1
    pure (.RESULT (lhs ||| rhs) :: s2)
  | .OPERATOR Token.XOR => do
    let (lhs, s1) ← popResult stack
    let (rhs, s2) ← popResult s1
    pure (.RESULT (lhs ^^^ rhs) :: s2)
  | .OPERATOR Token.NOT => do
    let (lhs, s1) ← popResult stack
    pure (.RESULT (if lhs == 0 then 1 else 0) :: s1)
  | .OPERATOR _ => some stack
  | .RESULT _ => some stack

/-- `BooleanExpression::evaluate`: fold the RPN sequence through the stack
machine, then pop the final result (`none` models the panics). -/
def evaluate (vc w x : Nat) (exp : List BooleanExpressionToken) : Option Nat := do
  let stack ← exp.foldlM (evalStep vc w x) []
  let (v, _) ← popResult stack
  pure v

/-- `&self.source[span.start..span.end]`, the identifier text of a token. -/
def sourceSlice (src : List Char) (sp : Span) : List Char :=
  (src.drop sp.start).take (sp.stop - sp.start)

/-- The parser's mutable state (`Parser` fields plus the local variables of
`Parser::parse`): the operator stack (top at the head), the RPN output
accumulator, the variable list, the identifier map (`HashMap<&str, u32>`,
modelled as an association list since it is only queried by key), the next
identifier id, and the previously consumed token. -/
structure ParseState where
  stack : List (Token × Span)
  res : List BooleanExpressionToken
  vars : List (List Char)
  identMap : List (List Char × Nat)
  nextId : Nat
  prevToken : Option Token
deriving DecidableEq, Repr

/-- The state at the start of `Parser::parse`. -/
def initState : ParseState := ⟨[], [], [], [], 0, none⟩

/-- `Parser::any_of_matches_next`: peek at the next token and return its
span when its kind is one of `tokens`. -/
def anyOfMatchesNext (rest : List (Token × Span)) (tokens : List Token) : Option Span :=
  match rest with
  | [] => none
  | (next, sp) :: _ => if tokens.contains next then some sp else none

/-- `self.ident_map.contains_key(ident_str)`. -/
def mapContains (m : List (List Char × Nat)) (s : List Char) : Bool :=
  m.any (fun p => p.1 == s)

/-- `self.ident_map.get(ident_str)`. -/
def mapGet (m : List (List Char × Nat)) (s : List Char) : Option Nat :=
  (m.find? (fun p => p.1 == s)).map Prod.snd

/-- The operator branch's reduction loop: pop stacked tokens with
`top <= token` to the output, never popping when the current token is
`NOT`. -/
def popOperators (stack : List (Token × Span)) (res : List BooleanExpressionToken)
    (tok : Token) : List (Token × Span) × List BooleanExpressionToken :=
  match stack with
  | [] => ([], res)
  | (top, sp) :: rest =>
    if tok = Token.NOT then ((top, sp) :: rest, res)
    else if tokLe top tok then popOperators rest (res ++ [.OPERATOR top]) tok
    else ((top, sp) :: rest, res)

/-- The `RPAREN` branch's pop loop: pop operators to the output until an
`LPAREN` is found and discarded; `none` when the stack empties first. -/
def popUntilLParen (stack : List (Token × Span)) (res : List BooleanExpressionToken) :
    Option (List (Token × Span) × List BooleanExpressionToken) :=
  match stack with
  | [] => none
  | (top, _) :: rest =>
    if top = Token.LPAREN then some (rest, res)
    else popUntilLParen rest (res ++ [.OPERATOR top])

/-- The end-of-input drain of `Parser::parse`: pop every remaining stacked
token to the output, failing on a leftover `LPAREN`. -/
def drainStack (stack : List (Token × Span)) (res : List BooleanExpressionToken) :
    Except (Span × String) (List BooleanExpressionToken) :=
  match stack with
  | [] => .ok res
  | (tok, sp) :: rest =>
    if tok = Token.LPAREN then .error (sp, "Unmatched right parenthesis")
    else drainStack rest (res ++ [.OPERATOR tok])

/-- One iteration of the `while let Some((token, span)) = self.lex.next()`
loop of `Parser::parse`, for a non-`Error` token: the `IDENT`, `LPAREN`,
`RPAREN` and operator branches with their adjacency validation (`rest` is
the not-yet-consumed remainder of the token stream, used for peeking). -/
def stepToken (src : List Char) (tok : Token) (span : Span)
    (rest : List (Token × Span)) (st : ParseState) :
    Except (Span × String) ParseState :=
  match tok with
  | Token.IDENT =>
    match anyOfMatchesNext rest [Token.IDENT, Token.LPAREN, Token.NOT] with
    | some sp => .error (sp, "Expected binary operator or right parenthesis.")
    | none =>
      let identStr := sourceSlice src span
      let s :=
        if mapContains st.identMap identStr then
          (st.identMap, st.vars, st.nextId)
        else
          (st.identMap ++ [(identStr, st.nextId)],
           st.vars ++ [identStr], st.nextId + 1)
      -- the `unwrap` of `ident_map.get`: the key was just ensured present
      let id := (mapGet s.1 identStr).getD 0
      .ok { st with identMap := s.1, vars := s.2.1, nextId := s.2.2,
                    res := st.res ++ [BooleanExpressionToken.IDENT id],
                    prevToken := some tok }
  | Token.LPAREN =>
    match anyOfMatchesNext rest [Token.AND, Token.OR, Token.XOR] with
    | some sp => .error (sp, "Expected parenthesis, variable or unary operator")
    | none =>
      .ok { st with stack := (tok, span) :: st.stack, prevToken := some tok }
  | Token.RPAREN =>
    match popUntilLParen st.stack st.res with
    | none => .error (span, "Unmatched left parenthesis")
    | some s1 =>
      match anyOfMatchesNext rest [Token.IDENT, Token.NOT, Token.LPAREN] with
      | some sp => .error (sp, "Expected binary operator or right parenthesis")
      | none =>
        .ok { st with stack := s1.1, res := s1.2, prevToken := some tok }
  | _ =>
    -- the operators NOT, AND, OR, XOR
    let s1 := popOperators st.stack st.res tok
    let stack2 := (tok, span) :: s1.1
    if st.prevToken.isNone && tok.is_binary_operator then
      .error (span, "Missing left hand side of binary expression")
    else
      match anyOfMatchesNext rest [Token.AND, Token.OR, Token.XOR, Token.RPAREN] with
      | some sp => .error (sp, "Expected variable, left parenthesis or unary operator")
      | none =>
        if rest.isEmpty then
          .error (span, "Missing right hand side of binary expression")
        else
          .ok { st with stack := stack2, res := s1.2, prevToken := some tok }

/-- The main loop of `Parser::parse`: abort on an `Error` token, otherwise
process the token and continue; at end of input drain the operator stack. -/
def parseLoop (src : List Char) :
    List (Token × Span) → ParseState → Except (Span × String) ParseState
  | [], st =>
    match drainStack st.stack st.res with
    | .error e => .error e
    | .ok r => .ok { st with stack := [], res := r }
  | (tok, span) :: rest, st =>
    if tok = Token.Error then .error (span, "Unknown token")
    else
      match stepToken src tok span rest st with
      | .error e => .error e
      | .ok st' => parseLoop src rest st'

/-- `Parser::parse` on a source text: lex, run the loop from the initial
state and return the compiled expression (RPN sequence and variable list);
an error carries the diagnostic span and message. -/
def Parser.parse (src : List Char) :
    Except (Span × String) (List BooleanExpressionToken × List (List Char)) :=
  match parseLoop src (lex src 0) initState with
  | .ok st => .ok (st.res, st.vars)
  | .error e => .error e

/-- The driver's row bound `(2 << (number_of_vars - 1)) as u128` from
`src/main.rs` (debug-build semantics): the `usize` subtraction underflows
for `n = 0`, and a shift amount of `32` or more overflows the shift of the
`i32` literal `2`; both panics are `none`. Otherwise the shifted value
wraps at 32 bits and, being an `i32`, is sign-extended by the `as u128`
cast when its sign bit is set. -/
def rowCount (n : Nat) : Option Nat :=
  if n = 0 then none
  else if 32 ≤ n - 1 then none
  else
    let v := (2 <<< (n - 1)) % 2 ^ 32
    some (if v < 2 ^ 31 then v else 2 ^ 128 - (2 ^ 32 - v))

/-- The driver's evaluation loop from `src/main.rs`: one row per counter
`i` in `0..rowBound`, each evaluating the compiled expression once on the
`u128` counter (bit width 128). -/
def mainRows (res : List BooleanExpressionToken) (vars : List (List Char)) :
    Option (List (Nat × Option Nat)) :=
  (rowCount vars.length).map fun r =>
    (List.range r).map fun i => (i, evaluate vars.length 128 i res)

/-- Follows the spec's words ("every operator's required operand count is
satisfiable by the tokens preceding it, and evaluating the full sequence
leaves exactly one value on the stack"): run the abstract stack counter
over an RPN sequence, `none` on operand underflow; a valid sequence ends
with count exactly `1`. -/
def rpnStackCount (l : List BooleanExpressionToken) : Option Nat :=
  l.foldlM
    (fun depth t =>
      match t with
      | .IDENT _ => some (depth + 1)
      | .OPERATOR Token.NOT => if 1 ≤ depth then some depth else none
      | .OPERATOR Token.AND | .OPERATOR Token.OR | .OPERATOR Token.XOR =>
        if 2 ≤ depth then some (depth - 1) else none
      | _ => some depth)
    0

/-! ## Helper lemmas -/

theorem popOperators_not (stack : List (Token × Span)) (res : List BooleanExpressionToken) :
    popOperators stack res Token.NOT = (stack, res) := by
  cases stack with
  | nil => rfl
  | cons p rest => simp [popOperators]

theorem popOperators_eq_takeWhile (tok : Token) (h : tok ≠ Token.NOT) :
    ∀ (stack : List (Token × Span)) (res : List BooleanExpressionToken),
      popOperators stack res tok =
        (stack.dropWhile (fun p => tokLe p.1 tok),
         res ++ (stack.takeWhile (fun p => tokLe p.1 tok)).map
           (fun p => BooleanExpressionToken.OPERATOR p.1)) := by
  intro stack
  induction stack with
  | nil => intro res; simp [popOperators]
  | cons p rest ih =>
    intro res
    obtain ⟨top, sp⟩ := p
    by_cases hle : tokLe top tok
    · simp [popOperators, h, hle, ih, List.takeWhile_cons, List.dropWhile_cons]
    · simp [popOperators, h, hle, List.takeWhile_cons, List.dropWhile_cons]

/-- The operator branch of `stepToken`, unfolded uniformly over the four
operator tokens. -/
theorem stepToken_operator (src : List Char) (op : Token) (sp : Span)
    (rest : List (Token × Span)) (st : ParseState)
    (hop : op = Token.NOT ∨ op = Token.AND ∨ op = Token.OR ∨ op = Token.XOR) :
    stepToken src op sp rest st =
      (if st.prevToken.isNone && op.is_binary_operator then
        .error (sp, "Missing left hand side of binary expression")
      else
        match anyOfMatchesNext rest [Token.AND, Token.OR, Token.XOR, Token.RPAREN] with
        | some sp2 => .error (sp2, "Expected variable, left parenthesis or unary operator")
        | none =>
          if rest.isEmpty then
            .error (sp, "Missing right hand side of binary expression")
          else
            .ok { st with stack := (op, sp) :: (popOperators st.stack st.res op).1,
                          res := (popOperators st.stack st.res op).2,
                          prevToken := some op }) := by
  rcases hop with h | h | h | h <;> subst h <;> rfl

/-- An operator token with nothing after it always makes `stepToken` fail. -/
theorem stepToken_last_operator (src : List Char) (st : ParseState) (op : Token) (sp : Span)
    (hop : op = Token.NOT ∨ op = Token.AND ∨ op = Token.OR ∨ op = Token.XOR) :
    ∃ e, stepToken src op sp [] st = .error e := by
  rw [stepToken_operator src op sp [] st hop]
  cases hbin : st.prevToken.isNone && op.is_binary_operator
  · exact ⟨(sp, "Missing right hand side of binary expression"), by simp [anyOfMatchesNext]⟩
  · exact ⟨(sp, "Missing left hand side of binary expression"), by simp⟩

/-- Processing any token either fails or recurses on the remainder. -/
theorem parseLoop_cons (src : List Char) (tok : Token) (span : Span)
    (rest : List (Token × Span)) (st : ParseState) (herr : ¬ tok = Token.Error) :
    parseLoop src ((tok, span) :: rest) st =
      (match stepToken src tok span rest st with
       | .error e => .error e
       | .ok st' => parseLoop src rest st') := by
  simp [parseLoop, herr]

/-- C7 helper: a token stream ending in an operator always makes
`parseLoop` fail, from any state. -/
theorem parseLoop_last_operator_error (src : List Char) :
    ∀ (ts : List (Token × Span)) (st : ParseState) (op : Token) (sp : Span),
      ts.getLast? = some (op, sp) →
      (op = Token.NOT ∨ op = Token.AND ∨ op = Token.OR ∨ op = Token.XOR) →
      ∃ e, parseLoop src ts st = .error e := by
  intro ts
  induction ts with
  | nil => intro st op sp h _; simp at h
  | cons t rest ih =>
    intro st op sp hlast hop
    obtain ⟨tok, span⟩ := t
    by_cases herr : tok = Token.Error
    · subst herr
      exact ⟨(span, "Unknown token"), by simp [parseLoop]⟩
    · rw [parseLoop_cons src tok span rest st herr]
      cases rest with
      | nil =>
        have h1 : tok = op ∧ span = sp := by
          simp [List.getLast?] at hlast
          exact ⟨hlast.1, hlast.2⟩
        obtain ⟨e, he⟩ := stepToken_last_operator src st op sp hop
        rw [h1.1, h1.2, he]
        exact ⟨e, rfl⟩
      | cons t2 rest2 =>
        have hlast' : (t2 :: rest2).getLast? = some (op, sp) := by
          rwa [List.getLast?_cons_cons] at hlast
        cases hstep : stepToken src tok span (t2 :: rest2) st with
        | error e => exact ⟨e, rfl⟩
        | ok st' =>
          obtain ⟨e, he⟩ := ih st' op sp hlast' hop
          exact ⟨e, he⟩

/-- C8 helper: an `IDENT` immediately followed by `IDENT`, `LPAREN` or
`NOT` is reported at the following token's span. -/
theorem parseLoop_ident_adjacent (src : List Char) (st : ParseState) (sp : Span)
    (t2 : Token) (sp2 : Span) (rest : List (Token × Span))
    (h : t2 = Token.IDENT ∨ t2 = Token.LPAREN ∨ t2 = Token.NOT) :
    parseLoop src ((Token.IDENT, sp) :: (t2, sp2) :: rest) st =
      .error (sp2, "Expected binary operator or right parenthesis.") := by
  rcases h with h | h | h <;> subst h <;> rfl

/-- C8 helper: the invalid adjacency anywhere in the stream makes
`parseLoop` fail, from any state. -/
theorem parseLoop_ident_adjacency_error (src : List Char) :
    ∀ (ts : List (Token × Span)) (st : ParseState),
      (∃ i sp t2 sp2, ts.get? i = some (Token.IDENT, sp) ∧
        ts.get? (i + 1) = some (t2, sp2) ∧
        (t2 = Token.IDENT ∨ t2 = Token.LPAREN ∨ t2 = Token.NOT)) →
      ∃ e, parseLoop src ts st = .error e := by
  intro ts
  induction ts with
  | nil =>
    rintro st ⟨i, sp, t2, sp2, h1, h2, h3⟩
    simp at h1
  | cons t rest ih =>
    rintro st ⟨i, sp, t2, sp2, h1, h2, h3⟩
    cases i with
    | zero =>
      simp only [List.get?_cons_zero, Option.some.injEq] at h1
      simp only [List.get?_cons_succ] at h2
      cases rest with
      | nil => simp at h2
      | cons u rest2 =>
        simp only [List.get?_cons_zero, Option.some.injEq] at h2
        rw [h1, h2]
        exact ⟨_, parseLoop_ident_adjacent src st sp t2 sp2 rest2 h3⟩
    | succ j =>
      obtain ⟨tok, span⟩ := t
      simp only [List.get?_cons_succ] at h1 h2
      by_cases herr : tok = Token.Error
      · subst herr
        exact ⟨(span, "Unknown token"), by simp [parseLoop]⟩
      · rw [parseLoop_cons src tok span rest st herr]
        cases hstep : stepToken src tok span rest st with
        | error e => exact ⟨e, rfl⟩
        | ok st' => exact ih st' ⟨j, sp, t2, sp2, h1, h2, h3⟩

/-- Translate a token's span by `k` positions. -/
def shiftTok (k : Nat) (p : Token × Span) : Token × Span :=
  (p.1, ⟨k + p.2.start, k + p.2.stop⟩)

set_option maxHeartbeats 1000000 in
theorem lexAux_fuel_irrelevant :
    ∀ (f g : Nat) (cs : List Char) (i : Nat),
      cs.length < f → cs.length < g → lexAux f cs i = lexAux g cs i := by
  intro f
  induction f with
  | zero => intro g cs i hf _; omega
  | succ f ih =>
    intro g cs i hf hg
    cases cs with
    | nil =>
      cases g with
      | zero => omega
      | succ g => rfl
    | cons c rest =>
      cases g with
      | zero => omega
      | succ g =>
        have hda := length_dropWhile_le Char.isAlpha rest
        have hdw := length_dropWhile_le isWs rest
        have ht : rest.tail.length ≤ rest.length := by
          rw [List.length_tail]; omega
        simp only [List.length_cons] at hf hg
        simp only [lexAux]
        split_ifs <;>
          first
            | rfl
            | exact ih g _ _ (by omega) (by omega)
            | exact congrArg _ (ih g _ _ (by omega) (by omega))

theorem lexAux_eq_lex (fuel : Nat) (cs : List Char) (i : Nat) (h : cs.length < fuel) :
    lexAux fuel cs i = lex cs i :=
  lexAux_fuel_irrelevant fuel (cs.length + 1) cs i h (Nat.lt_succ_self _)

set_option maxHeartbeats 1000000 in
/-- The one-step unfolding of the lexer on a nonempty input, with the
recursive occurrences expressed through `lex` itself. -/
theorem lex_cons (c : Char) (rest : List Char) (i : Nat) :
    lex (c :: rest) i =
      (if c.isAlpha then
        (Token.IDENT, ⟨i, i + (1 + (rest.takeWhile Char.isAlpha).length)⟩) ::
          lex (rest.dropWhile Char.isAlpha)
            (i + (1 + (rest.takeWhile Char.isAlpha).length))
      else if isWs c then
        lex (rest.dropWhile isWs) (i + (1 + (rest.takeWhile isWs).length))
      else if c = '!' then (Token.NOT, ⟨i, i + 1⟩) :: lex rest (i + 1)
      else if c = '^' then (Token.XOR, ⟨i, i + 1⟩) :: lex rest (i + 1)
      else if c = '(' then (Token.LPAREN, ⟨i, i + 1⟩) :: lex rest (i + 1)
      else if c = ')' then (Token.RPAREN, ⟨i, i + 1⟩) :: lex rest (i + 1)
      else if c = '&' then
        if rest.head? = some '&' then (Token.AND, ⟨i, i + 2⟩) :: lex rest.tail (i + 2)
        else (Token.Error, ⟨i, i + 1⟩) :: lex rest (i + 1)
      else if c = '|' then
        if rest.head? = some '|' then (Token.OR, ⟨i, i + 2⟩) :: lex rest.tail (i + 2)
        else (Token.Error, ⟨i, i + 1⟩) :: lex rest (i + 1)
      else (Token.Error, ⟨i, i + 1⟩) :: lex rest (i + 1)) := by
  have hda := length_dropWhile_le Char.isAlpha rest
  have hdw := length_dropWhile_le isWs rest
  have ht : rest.tail.length ≤ rest.length := by rw [List.length_tail]; omega
  show lexAux ((c :: rest).length + 1) (c :: rest) i = _
  simp only [List.length_cons, lexAux]
  split_ifs <;>
    first
      | rfl
      | (rw [lexAux_eq_lex] ; omega)

theorem takeWhile_append_single (p : Char → Bool) (x : Char) (hx : p x = false) :
    ∀ l : List Char, (l ++ [x]).takeWhile p = l.takeWhile p := by
  intro l
  induction l with
  | nil => simp [List.takeWhile_cons, hx]
  | cons a l ih =>
    simp only [List.cons_append, List.takeWhile_cons]
    cases h : p a <;> simp [ih]

theorem dropWhile_append_single (p : Char → Bool) (x : Char) (hx : p x = false) :
    ∀ l : List Char, (l ++ [x]).dropWhile p = l.dropWhile p ++ [x] := by
  intro l
  induction l with
  | nil => simp [List.dropWhile_cons, hx]
  | cons a l ih =>
    simp only [List.cons_append, List.dropWhile_cons]
    cases h : p a <;> simp [ih]

theorem takeWhile_dropWhile_length (p : Char → Bool) (l : List Char) :
    (l.takeWhile p).length + (l.dropWhile p).length = l.length := by
  conv_rhs => rw [← List.takeWhile_append_dropWhile (p := p) (l := l)]
  rw [List.length_append]

/-- Appending a closing parenthesis to a source text appends exactly one
`RPAREN` token to its lexing, leaving every other token unchanged. -/
theorem lex_append_rparen :
    ∀ (n : Nat) (cs : List Char), cs.length ≤ n → ∀ (i : Nat),
      lex (cs ++ [')']) i =
        lex cs i ++ [(Token.RPAREN, ⟨i + cs.length, i + cs.length + 1⟩)] := by
  intro n
  induction n with
  | zero =>
    intro cs hcs i
    have h : cs = [] := List.length_eq_zero.mp (Nat.le_zero.mp hcs)
    subst h
    rfl
  | succ n ih =>
    intro cs hcs i
    cases cs with
    | nil => rfl
    | cons c rest =>
      simp only [List.length_cons] at hcs
      have hrest : rest.length ≤ n := by omega
      rw [List.cons_append, lex_cons, lex_cons]
      by_cases h1 : c.isAlpha
      · rw [if_pos h1, if_pos h1,
           takeWhile_append_single Char.isAlpha ')' (by decide) rest,
           dropWhile_append_single Char.isAlpha ')' (by decide) rest,
           ih (rest.dropWhile Char.isAlpha)
             (le_trans (length_dropWhile_le _ _) hrest)]
        have harith := takeWhile_dropWhile_length Char.isAlpha rest
        have hspan : i + (1 + (rest.takeWhile Char.isAlpha).length) +
            (rest.dropWhile Char.isAlpha).length = i + (c :: rest).length := by
          simp only [List.length_cons]; omega
        simp only [List.cons_append, hspan]
      · rw [if_neg h1, if_neg h1]
        by_cases h2 : isWs c
        · rw [if_pos h2, if_pos h2,
             takeWhile_append_single isWs ')' (by decide) rest,
             dropWhile_append_single isWs ')' (by decide) rest,
             ih (rest.dropWhile isWs) (le_trans (length_dropWhile_le _ _) hrest)]
          have harith := takeWhile_dropWhile_length isWs rest
          have hspan : i + (1 + (rest.takeWhile isWs).length) +
              (rest.dropWhile isWs).length = i + (c :: rest).length := by
            simp only [List.length_cons]; omega
          simp only [hspan]
        · rw [if_neg h2, if_neg h2]
          have hone : ∀ (tok : Token),
              (tok, (⟨i, i + 1⟩ : Span)) :: lex (rest ++ [')']) (i + 1) =
              ((tok, (⟨i, i + 1⟩ : Span)) :: lex rest (i + 1)) ++
                [(Token.RPAREN, ⟨i + (c :: rest).length, i + (c :: rest).length + 1⟩)] := by
            intro tok
            rw [ih rest hrest]
            have hspan : i + 1 + rest.length = i + (c :: rest).length := by
              simp only [List.length_cons]; omega
            simp only [List.cons_append, hspan]
          by_cases h3 : c = '!'
          · rw [if_pos h3, if_pos h3]; exact hone _
          · rw [if_neg h3, if_neg h3]
            by_cases h4 : c = '^'
            · rw [if_pos h4, if_pos h4]; exact hone _
            · rw [if_neg h4, if_neg h4]
              by_cases h5 : c = '('
              · rw [if_pos h5, if_pos h5]; exact hone _
              · rw [if_neg h5, if_neg h5]
                by_cases h6 : c = ')'
                · rw [if_pos h6, if_pos h6]; exact hone _
                · rw [if_neg h6, if_neg h6]
                  by_cases h7 : c = '&'
                  · rw [if_pos h7, if_pos h7]
                    cases rest with
                    | nil => rfl
                    | cons r rs =>
                      simp only [List.cons_append, List.head?_cons, List.tail_cons]
                      by_cases hr : r = '&'
                      · subst hr
                        rw [if_pos rfl, if_pos rfl,
                           ih rs (by simp at hrest; omega)]
                        have hspan : i + 2 + rs.length = i + (c :: '&' :: rs).length := by
                          simp only [List.length_cons]; omega
                        simp only [List.cons_append, hspan]
                      · rw [if_neg (by simpa using hr), if_neg (by simpa using hr)]
                        exact hone _
                  · rw [if_neg h7, if_neg h7]
                    by_cases h8 : c = '|'
                    · rw [if_pos h8, if_pos h8]
                      cases rest with
                      | nil => rfl
                      | cons r rs =>
                        simp only [List.cons_append, List.head?_cons, List.tail_cons]
                        by_cases hr : r = '|'
                        · subst hr
                          rw [if_pos rfl, if_pos rfl,
                             ih rs (by simp at hrest; omega)]
                          have hspan : i + 2 + rs.length = i + (c :: '|' :: rs).length := by
                            simp only [List.length_cons]; omega
                          simp only [List.cons_append, hspan]
                        · rw [if_neg (by simpa using hr), if_neg (by simpa using hr)]
                          exact hone _
                    · rw [if_neg h8, if_neg h8]; exact hone _

/-- Lexing from a translated start position translates every span. -/
theorem lex_shift :
    ∀ (n : Nat) (cs : List Char), cs.length ≤ n → ∀ (i j : Nat),
      lex cs (i + j) = (lex cs j).map (shiftTok i) := by
  intro n
  induction n with
  | zero =>
    intro cs hcs i j
    have h : cs = [] := List.length_eq_zero.mp (Nat.le_zero.mp hcs)
    subst h
    rfl
  | succ n ih =>
    intro cs hcs i j
    cases cs with
    | nil => rfl
    | cons c rest =>
      simp only [List.length_cons] at hcs
      have hrest : rest.length ≤ n := by omega
      rw [lex_cons, lex_cons]
      have hone : ∀ (tok : Token) (k : Nat) (l : List Char), l.length ≤ n →
          (tok, (⟨i + j, i + j + k⟩ : Span)) :: lex l (i + j + k) =
            ((tok, (⟨j, j + k⟩ : Span)) :: lex l (j + k)).map (shiftTok i) := by
        intro tok k l hl
        rw [List.map_cons]
        have ha : i + j + k = i + (j + k) := by omega
        rw [ha, ih l hl i (j + k)]
        simp [shiftTok]
      by_cases h1 : c.isAlpha
      · rw [if_pos h1, if_pos h1]
        exact hone Token.IDENT _ _ (le_trans (length_dropWhile_le _ _) hrest)
      · rw [if_neg h1, if_neg h1]
        by_cases h2 : isWs c
        · rw [if_pos h2, if_pos h2]
          have ha : i + j + (1 + (rest.takeWhile isWs).length) =
              i + (j + (1 + (rest.takeWhile isWs).length)) := by omega
          rw [ha]
          exact ih _ (le_trans (length_dropWhile_le _ _) hrest) i _
        · rw [if_neg h2, if_neg h2]
          have htail : rest.tail.length ≤ n := by
            rw [List.length_tail]; omega
          by_cases h3 : c = '!'
          · rw [if_pos h3, if_pos h3]; exact hone _ 1 _ hrest
          · rw [if_neg h3, if_neg h3]
            by_cases h4 : c = '^'
            · rw [if_pos h4, if_pos h4]; exact hone _ 1 _ hrest
            · rw [if_neg h4, if_neg h4]
              by_cases h5 : c = '('
              · rw [if_pos h5, if_pos h5]; exact hone _ 1 _ hrest
              · rw [if_neg h5, if_neg h5]
                by_cases h6 : c = ')'
                · rw [if_pos h6, if_pos h6]; exact hone _ 1 _ hrest
                · rw [if_neg h6, if_neg h6]
                  by_cases h7 : c = '&'
                  · rw [if_pos h7, if_pos h7]
                    by_cases hr : rest.head? = some '&'
                    · rw [if_pos hr, if_pos hr]; exact hone _ 2 _ htail
                    · rw [if_neg hr, if_neg hr]; exact hone _ 1 _ hrest
                  · rw [if_neg h7, if_neg h7]
                    by_cases h8 : c = '|'
                    · rw [if_pos h8, if_pos h8]
                      by_cases hr : rest.head? = some '|'
                      · rw [if_pos hr, if_pos hr]; exact hone _ 2 _ htail
                      · rw [if_neg hr, if_neg hr]; exact hone _ 1 _ hrest
                    · rw [if_neg h8, if_neg h8]; exact hone _ 1 _ hrest

/-- Every span produced by the lexer lies inside the lexed region. -/
theorem lex_span_bounds :
    ∀ (n : Nat) (cs : List Char), cs.length ≤ n → ∀ (i : Nat) (p : Token × Span),
      p ∈ lex cs i →
      i ≤ p.2.start ∧ p.2.start < p.2.stop ∧ p.2.stop ≤ i + cs.length := by
  intro n
  induction n with
  | zero =>
    intro cs hcs i p hp
    have h : cs = [] := List.length_eq_zero.mp (Nat.le_zero.mp hcs)
    subst h
    simp [lex, lexAux] at hp
  | succ n ih =>
    intro cs hcs i p hp
    cases cs with
    | nil => simp [lex, lexAux] at hp
    | cons c rest =>
      simp only [List.length_cons] at hcs
      have hrest : rest.length ≤ n := by omega
      rw [lex_cons] at hp
      have hone : ∀ (tok : Token) (k : Nat) (l : List Char), l.length ≤ n →
          1 ≤ k → k + l.length ≤ rest.length + 1 →
          p ∈ (tok, (⟨i, i + k⟩ : Span)) :: lex l (i + k) →
          i ≤ p.2.start ∧ p.2.start < p.2.stop ∧
            p.2.stop ≤ i + (rest.length + 1) := by
        intro tok k l hl hk hkl hmem
        rcases List.mem_cons.mp hmem with h | h
        · subst h; simp; omega
        · obtain ⟨b1, b2, b3⟩ := ih l hl (i + k) p h
          exact ⟨by omega, b2, by omega⟩
      rw [show (c :: rest).length = rest.length + 1 from rfl]
      by_cases h1 : c.isAlpha
      · rw [if_pos h1] at hp
        have harith := takeWhile_dropWhile_length Char.isAlpha rest
        exact hone Token.IDENT _ _ (le_trans (length_dropWhile_le _ _) hrest)
          (by omega) (by omega) hp
      · rw [if_neg h1] at hp
        by_cases h2 : isWs c
        · rw [if_pos h2] at hp
          have harith := takeWhile_dropWhile_length isWs rest
          obtain ⟨b1, b2, b3⟩ :=
            ih _ (le_trans (length_dropWhile_le _ _) hrest) _ p hp
          exact ⟨by omega, b2, by omega⟩
        · rw [if_neg h2] at hp
          have htail : rest.tail.length ≤ n := by
            rw [List.length_tail]; omega
          have htail2 : rest.tail.length ≤ rest.length - 1 := by
            rw [List.length_tail]
          by_cases h3 : c = '!'
          · rw [if_pos h3] at hp; exact hone _ 1 _ hrest (by omega) (by omega) hp
          · rw [if_neg h3] at hp
            by_cases h4 : c = '^'
            · rw [if_pos h4] at hp; exact hone _ 1 _ hrest (by omega) (by omega) hp
            · rw [if_neg h4] at hp
              by_cases h5 : c = '('
              · rw [if_pos h5] at hp; exact hone _ 1 _ hrest (by omega) (by omega) hp
              · rw [if_neg h5] at hp
                by_cases h6 : c = ')'
                · rw [if_pos h6] at hp; exact hone _ 1 _ hrest (by omega) (by omega) hp
                · rw [if_neg h6] at hp
                  by_cases h7 : c = '&'
                  · rw [if_pos h7] at hp
                    by_cases hr : rest.head? = some '&'
                    · rw [if_pos hr] at hp
                      have hne : rest ≠ [] := by
                        intro hcon; rw [hcon] at hr; simp at hr
                      have hlen1 : 1 ≤ rest.length := by
                        cases rest with
                        | nil => exact absurd rfl hne
                        | cons a b => simp
                      exact hone _ 2 _ htail (by omega) (by omega) hp
                    · rw [if_neg hr] at hp
                      exact hone _ 1 _ hrest (by omega) (by omega) hp
                  · rw [if_neg h7] at hp
                    by_cases h8 : c = '|'
                    · rw [if_pos h8] at hp
                      by_cases hr : rest.head? = some '|'
                      · rw [if_pos hr] at hp
                        have hne : rest ≠ [] := by
                          intro hcon; rw [hcon] at hr; simp at hr
                        have hlen1 : 1 ≤ rest.length := by
                          cases rest with
                          | nil => exact absurd rfl hne
                          | cons a b => simp
                        exact hone _ 2 _ htail (by omega) (by omega) hp
                      · rw [if_neg hr] at hp
                        exact hone _ 1 _ hrest (by omega) (by omega) hp
                    · rw [if_neg h8] at hp
                      exact hone _ 1 _ hrest (by omega) (by omega) hp

/-- A span lying inside `s`, shifted by one, slices the same text out of
`'(' :: s ++ [')']` as the original span slices out of `s`. -/
theorem sourceSlice_extend (s : List Char) (a b : Nat) (hb : b ≤ s.length) :
    sourceSlice ('(' :: (s ++ [')'])) ⟨1 + a, 1 + b⟩ = sourceSlice s ⟨a, b⟩ := by
  show ((('(' :: (s ++ [')'])).drop (1 + a)).take (1 + b - (1 + a))) =
    ((s.drop a).take (b - a))
  have h2 : (1 : Nat) + b - (1 + a) = b - a := by omega
  have h1 : (1 : Nat) + a = a + 1 := by omega
  rw [h2, h1, List.drop_succ_cons]
  rcases Nat.lt_or_ge s.length a with ha | ha
  · have hz : b - a = 0 := by omega
    simp [hz]
  · rw [List.drop_append_of_le_length ha]
    have hlen : b - a ≤ (s.drop a).length := by
      rw [List.length_drop]; omega
    rw [List.take_append_of_le_length hlen]

/-- Corresponding tokens of the inner and outer runs: same kind and the
same identifier text under their respective sources. -/
def TokMatch (src src' : List Char) (a b : Token × Span) : Prop :=
  a.1 = b.1 ∧ sourceSlice src a.2 = sourceSlice src' b.2

/-- Corresponding operator-stack entries: same token kind (spans are only
used for diagnostics). -/
def StackMatch (a b : Token × Span) : Prop := a.1 = b.1

/-- Relation between the state of a parse of `E` and the state of the
parse of `(E)` after the opening parenthesis: the outer stack is the inner
stack (kind-wise) on top of the sentinel `LPAREN`, the output and the
interning state agree, and the outer run has consumed at least one token. -/
def StRel (sp0 : Span) (st st' : ParseState) : Prop :=
  (∃ stk, st'.stack = stk ++ [(Token.LPAREN, sp0)] ∧
    List.Forall₂ StackMatch st.stack stk) ∧
  st'.res = st.res ∧ st'.vars = st.vars ∧ st'.identMap = st.identMap ∧
  st'.nextId = st.nextId ∧ st'.prevToken.isSome = true

theorem popOperators_cons (top : Token) (sp : Span) (rest : List (Token × Span))
    (res : List BooleanExpressionToken) (tok : Token) :
    popOperators ((top, sp) :: rest) res tok =
      if tok = Token.NOT then ((top, sp) :: rest, res)
      else if tokLe top tok then popOperators rest (res ++ [.OPERATOR top]) tok
      else ((top, sp) :: rest, res) := rfl

theorem popUntilLParen_cons (top : Token) (sp : Span) (rest : List (Token × Span))
    (res : List BooleanExpressionToken) :
    popUntilLParen ((top, sp) :: rest) res =
      if top = Token.LPAREN then some (rest, res)
      else popUntilLParen rest (res ++ [.OPERATOR top]) := rfl

theorem drainStack_cons (tok : Token) (sp : Span) (rest : List (Token × Span))
    (res : List BooleanExpressionToken) :
    drainStack ((tok, sp) :: rest) res =
      if tok = Token.LPAREN then .error (sp, "Unmatched right parenthesis")
      else drainStack rest (res ++ [.OPERATOR tok]) := rfl

theorem forall₂_stackMatch_map_fst :
    ∀ {xs ys : List (Token × Span)}, List.Forall₂ StackMatch xs ys →
      xs.map Prod.fst = ys.map Prod.fst := by
  intro xs ys h
  induction h with
  | nil => rfl
  | cons h1 _ ih => simp only [List.map_cons, ih, StackMatch] at *; simp [h1, ih]

/-- The operator reduction loop acts identically (kind-wise) on a
corresponding stack extended with the sentinel `LPAREN`, which it never
pops. -/
theorem popOperators_stackMatch (tok : Token)
    (htok : tok = Token.NOT ∨ tok = Token.AND ∨ tok = Token.OR ∨ tok = Token.XOR)
    (sp0 : Span) :
    ∀ {xs ys : List (Token × Span)}, List.Forall₂ StackMatch xs ys →
      ∀ (res : List BooleanExpressionToken),
      ∃ ys2, popOperators (ys ++ [(Token.LPAREN, sp0)]) res tok =
          (ys2 ++ [(Token.LPAREN, sp0)], (popOperators xs res tok).2) ∧
        List.Forall₂ StackMatch (popOperators xs res tok).1 ys2 := by
  intro xs ys h
  induction h with
  | nil =>
    intro res
    by_cases hn : tok = Token.NOT
    · subst hn
      exact ⟨[], by simp [popOperators_cons, popOperators], List.Forall₂.nil⟩
    · have hle : tokLe Token.LPAREN tok = false := by
        rcases htok with h | h | h | h <;> subst h <;>
          first | exact absurd rfl hn | decide
      refine ⟨[], ?_, List.Forall₂.nil⟩
      simp [popOperators_cons, popOperators, hn, hle]
  | cons h1 h2 ih =>
    rename_i a b l1 l2
    obtain ⟨ta, sa⟩ := a
    obtain ⟨tb, sb⟩ := b
    have hab : ta = tb := h1
    subst hab
    intro res
    by_cases hn : tok = Token.NOT
    · subst hn
      refine ⟨(ta, sb) :: l2, ?_, ?_⟩
      · simp [popOperators_cons]
      · rw [popOperators_cons, if_pos rfl]
        exact List.Forall₂.cons h1 h2
    · by_cases hle : tokLe ta tok
      · obtain ⟨ys2, hy1, hy2⟩ := ih (res ++ [.OPERATOR ta])
        refine ⟨ys2, ?_, ?_⟩
        · rw [List.cons_append, popOperators_cons, if_neg hn, if_pos hle, hy1,
             popOperators_cons, if_neg hn, if_pos hle]
        · rw [popOperators_cons, if_neg hn, if_pos hle]
          exact hy2
      · refine ⟨(ta, sb) :: l2, ?_, ?_⟩
        · rw [List.cons_append, popOperators_cons, if_neg hn, if_neg hle,
             popOperators_cons, if_neg hn, if_neg hle]
        · rw [popOperators_cons, if_neg hn, if_neg hle]
          exact List.Forall₂.cons h1 h2

/-- The `RPAREN` pop loop acts identically (kind-wise) on a corresponding
stack extended with the sentinel `LPAREN`. -/
theorem popUntilLParen_stackMatch (sp0 : Span) :
    ∀ {xs ys : List (Token × Span)}, List.Forall₂ StackMatch xs ys →
      ∀ (res r : List BooleanExpressionToken) (xs2 : List (Token × Span)),
      popUntilLParen xs res = some (xs2, r) →
      ∃ ys2, popUntilLParen (ys ++ [(Token.LPAREN, sp0)]) res =
          some (ys2 ++ [(Token.LPAREN, sp0)], r) ∧
        List.Forall₂ StackMatch xs2 ys2 := by
  intro xs ys h
  induction h with
  | nil => intro res r xs2 hpop; simp [popUntilLParen] at hpop
  | cons h1 h2 ih =>
    rename_i a b l1 l2
    obtain ⟨ta, sa⟩ := a
    obtain ⟨tb, sb⟩ := b
    have hab : ta = tb := h1
    subst hab
    intro res r xs2 hpop
    rw [popUntilLParen_cons] at hpop
    by_cases hlp : ta = Token.LPAREN
    · rw [if_pos hlp] at hpop
      obtain ⟨he1, he2⟩ : l1 = xs2 ∧ res = r := by
        simpa using hpop
      subst he1; subst he2
      exact ⟨l2, by rw [List.cons_append, popUntilLParen_cons, if_pos hlp], h2⟩
    · rw [if_neg hlp] at hpop
      obtain ⟨ys2, hy1, hy2⟩ := ih (res ++ [.OPERATOR ta]) r xs2 hpop
      exact ⟨ys2, by rw [List.cons_append, popUntilLParen_cons, if_neg hlp]; exact hy1, hy2⟩

/-- A successful end-of-input drain means no `LPAREN` on the stack, and
the drained output appends the stacked operators in order. -/
theorem drainStack_ok :
    ∀ (xs : List (Token × Span)) (res r : List BooleanExpressionToken),
      drainStack xs res = .ok r →
      (∀ p ∈ xs, p.1 ≠ Token.LPAREN) ∧
        r = res ++ xs.map (fun p => BooleanExpressionToken.OPERATOR p.1) := by
  intro xs
  induction xs with
  | nil =>
    intro res r h
    simp only [drainStack, Except.ok.injEq] at h
    simp [h]
  | cons p rest ih =>
    intro res r h
    obtain ⟨tok, sp⟩ := p
    rw [drainStack_cons] at h
    by_cases hlp : tok = Token.LPAREN
    · rw [if_pos hlp] at h; exact absurd h (by simp)
    · rw [if_neg hlp] at h
      obtain ⟨hall, hr⟩ := ih (res ++ [.OPERATOR tok]) r h
      refine ⟨?_, by simp [hr]⟩
      intro q hq
      rcases List.mem_cons.mp hq with hq | hq
      · subst hq; exact hlp
      · exact hall q hq

/-- Popping to a sentinel `LPAREN` below a stack without any `LPAREN`
empties the stack and appends the same operators the final drain would. -/
theorem popUntilLParen_sentinel (sp0 : Span) :
    ∀ (ys : List (Token × Span)) (res : List BooleanExpressionToken),
      (∀ p ∈ ys, p.1 ≠ Token.LPAREN) →
      popUntilLParen (ys ++ [(Token.LPAREN, sp0)]) res =
        some ([], res ++ ys.map (fun p => BooleanExpressionToken.OPERATOR p.1)) := by
  intro ys
  induction ys with
  | nil => intro res _; simp [popUntilLParen_cons, popUntilLParen]
  | cons p rest ih =>
    intro res hall
    obtain ⟨tok, sp⟩ := p
    have hlp : tok ≠ Token.LPAREN := hall (tok, sp) (List.mem_cons_self _ _)
    rw [List.cons_append, popUntilLParen_cons, if_neg hlp,
       ih (res ++ [BooleanExpressionToken.OPERATOR tok])
         (fun q hq => hall q (List.mem_cons_of_mem _ hq))]
    simp

theorem forall₂_map_of_forall {α β : Type} {R : α → β → Prop} (f : α → β) :
    ∀ l : List α, (∀ x ∈ l, R x (f x)) → List.Forall₂ R l (l.map f) := by
  intro l
  induction l with
  | nil => intro _; exact List.Forall₂.nil
  | cons a l ih =>
    intro h
    exact List.Forall₂.cons (h a (List.mem_cons_self _ _))
      (ih fun x hx => h x (List.mem_cons_of_mem _ hx))

/-- A passed peek check still passes with the closing `RPAREN` appended,
when `RPAREN` is not among the forbidden kinds. -/
theorem anyOf_paren_none (src src' : List Char) (spn : Span)
    {l1 l2 : List (Token × Span)} (hm : List.Forall₂ (TokMatch src src') l1 l2)
    (toks : List Token) (hR : toks.contains Token.RPAREN = false)
    (hnone : anyOfMatchesNext l1 toks = none) :
    anyOfMatchesNext (l2 ++ [(Token.RPAREN, spn)]) toks = none := by
  cases hm with
  | nil =>
    simp only [List.nil_append, anyOfMatchesNext, hR, Bool.false_eq_true, if_false]
  | cons h1 h2 =>
    rename_i a b l1' l2'
    obtain ⟨ta, sa2⟩ := a
    obtain ⟨tb, sb2⟩ := b
    have hab : ta = tb := h1.1
    subst hab
    simp only [anyOfMatchesNext, List.cons_append] at *
    split at hnone
    · exact absurd hnone (by simp)
    · rename_i hc
      rw [if_neg hc]

/-- A passed peek check on a nonempty remainder still passes with the
closing `RPAREN` appended (any forbidden set). -/
theorem anyOf_paren_none_of_ne_nil (src src' : List Char) (spn : Span)
    {l1 l2 : List (Token × Span)} (hm : List.Forall₂ (TokMatch src src') l1 l2)
    (toks : List Token) (hne : l1 ≠ [])
    (hnone : anyOfMatchesNext l1 toks = none) :
    anyOfMatchesNext (l2 ++ [(Token.RPAREN, spn)]) toks = none := by
  cases hm with
  | nil => exact absurd rfl hne
  | cons h1 h2 =>
    rename_i a b l1' l2'
    obtain ⟨ta, sa2⟩ := a
    obtain ⟨tb, sb2⟩ := b
    have hab : ta = tb := h1.1
    subst hab
    simp only [anyOfMatchesNext, List.cons_append] at *
    split at hnone
    · exact absurd hnone (by simp)
    · rename_i hc
      rw [if_neg hc]

theorem isEmpty_append_single (l : List (Token × Span)) (x : Token × Span) :
    (l ++ [x]).isEmpty = false := by cases l <;> rfl

/-- The operator case of the step correspondence. -/
theorem stepToken_paren_operator (src src' : List Char) (sp0 spn : Span)
    (op : Token) (sa sb : Span) (l1 l2 : List (Token × Span))
    (st st' st1 : ParseState)
    (hop : op = Token.NOT ∨ op = Token.AND ∨ op = Token.OR ∨ op = Token.XOR)
    (hmatch : List.Forall₂ (TokMatch src src') l1 l2)
    (hrel : StRel sp0 st st')
    (hstep : stepToken src op sa l1 st = .ok st1) :
    ∃ st1', stepToken src' op sb (l2 ++ [(Token.RPAREN, spn)]) st' = .ok st1' ∧
      StRel sp0 st1 st1' := by
  obtain ⟨⟨stk, hstk, hfor⟩, hres, hvars, hmap, hnid, hprev⟩ := hrel
  rw [stepToken_operator src op sa l1 st hop] at hstep
  split at hstep
  · exact absurd hstep (by simp)
  · cases hany : anyOfMatchesNext l1
      [Token.AND, Token.OR, Token.XOR, Token.RPAREN] with
    | some sp => rw [hany] at hstep; exact absurd hstep (by simp)
    | none =>
      rw [hany] at hstep
      cases hemp : l1.isEmpty with
      | true => rw [hemp] at hstep; exact absurd hstep (by simp)
      | false =>
        rw [hemp] at hstep
        simp only [Bool.false_eq_true, if_false, Except.ok.injEq] at hstep
        have hne : l1 ≠ [] := by
          intro hcon; rw [hcon] at hemp; simp at hemp
        have hany' := anyOf_paren_none_of_ne_nil src src' spn hmatch
          [Token.AND, Token.OR, Token.XOR, Token.RPAREN] hne hany
        obtain ⟨ys2, hy1, hy2⟩ :=
          popOperators_stackMatch op hop sp0 hfor st.res
        have hpv : st'.prevToken.isNone = false := by
          cases hv : st'.prevToken with
          | none => rw [hv] at hprev; simp at hprev
          | some v => rfl
        have houter : stepToken src' op sb (l2 ++ [(Token.RPAREN, spn)]) st' =
            .ok { st' with
              stack := (op, sb) :: (ys2 ++ [(Token.LPAREN, sp0)]),
              res := (popOperators st.stack st.res op).2,
              prevToken := some op } := by
          rw [stepToken_operator src' op sb (l2 ++ [(Token.RPAREN, spn)]) st' hop,
            hpv]
          simp only [Bool.false_and, Bool.false_eq_true, if_false, hany',
            isEmpty_append_single, hstk, hres, hy1]
        refine ⟨_, houter, ?_⟩
        subst hstep
        refine ⟨⟨(op, sb) :: ys2, by simp, List.Forall₂.cons rfl hy2⟩,
          by simp, by simp [hvars], by simp [hmap], by simp [hnid], by simp⟩

/-- One parser step inside the enclosing parenthesis: if the inner run
advances, the outer run advances to a related state. -/
theorem stepToken_paren (src src' : List Char) (sp0 spn : Span)
    (tok : Token) (sa sb : Span) (l1 l2 : List (Token × Span))
    (st st' st1 : ParseState)
    (herr : tok ≠ Token.Error)
    (hslice : sourceSlice src sa = sourceSlice src' sb)
    (hmatch : List.Forall₂ (TokMatch src src') l1 l2)
    (hrel : StRel sp0 st st')
    (hstep : stepToken src tok sa l1 st = .ok st1) :
    ∃ st1', stepToken src' tok sb (l2 ++ [(Token.RPAREN, spn)]) st' = .ok st1' ∧
      StRel sp0 st1 st1' := by
  cases tok
  case NOT =>
    exact stepToken_paren_operator src src' sp0 spn Token.NOT sa sb l1 l2
      st st' st1 (by decide) hmatch hrel hstep
  case AND =>
    exact stepToken_paren_operator src src' sp0 spn Token.AND sa sb l1 l2
      st st' st1 (by decide) hmatch hrel hstep
  case OR =>
    exact stepToken_paren_operator src src' sp0 spn Token.OR sa sb l1 l2
      st st' st1 (by decide) hmatch hrel hstep
  case XOR =>
    exact stepToken_paren_operator src src' sp0 spn Token.XOR sa sb l1 l2
      st st' st1 (by decide) hmatch hrel hstep
  all_goals obtain ⟨⟨stk, hstk, hfor⟩, hres, hvars, hmap, hnid, hprev⟩ := hrel
  case IDENT =>
    simp only [stepToken] at hstep
    cases hany : anyOfMatchesNext l1 [Token.IDENT, Token.LPAREN, Token.NOT] with
    | some sp => rw [hany] at hstep; exact absurd hstep (by simp)
    | none =>
      rw [hany] at hstep
      simp only [Except.ok.injEq] at hstep
      have hany' := anyOf_paren_none src src' spn hmatch
        [Token.IDENT, Token.LPAREN, Token.NOT] (by decide) hany
      subst hstep
      have houter : stepToken src' Token.IDENT sb (l2 ++ [(Token.RPAREN, spn)]) st' =
          .ok { st' with
            identMap := (if mapContains st.identMap (sourceSlice src sa) then
                (st.identMap, st.vars, st.nextId)
              else
                (st.identMap ++ [(sourceSlice src sa, st.nextId)],
                 st.vars ++ [sourceSlice src sa], st.nextId + 1)).1,
            vars := (if mapContains st.identMap (sourceSlice src sa) then
                (st.identMap, st.vars, st.nextId)
              else
                (st.identMap ++ [(sourceSlice src sa, st.nextId)],
                 st.vars ++ [sourceSlice src sa], st.nextId + 1)).2.1,
            nextId := (if mapContains st.identMap (sourceSlice src sa) then
                (st.identMap, st.vars, st.nextId)
              else
                (st.identMap ++ [(sourceSlice src sa, st.nextId)],
                 st.vars ++ [sourceSlice src sa], st.nextId + 1)).2.2,
            res := st.res ++ [BooleanExpressionToken.IDENT
              ((mapGet (if mapContains st.identMap (sourceSlice src sa) then
                  (st.identMap, st.vars, st.nextId)
                else
                  (st.identMap ++ [(sourceSlice src sa, st.nextId)],
                   st.vars ++ [sourceSlice src sa], st.nextId + 1)).1
                (sourceSlice src sa)).getD 0)],
            prevToken := some Token.IDENT } := by
        simp only [stepToken, hany', hmap, hres, hvars, hnid, ← hslice]
      refine ⟨_, houter, ?_⟩
      refine ⟨⟨stk, by simpa using hstk, hfor⟩, by simp, by simp, by simp,
        by simp, by simp⟩
  case LPAREN =>
    simp only [stepToken] at hstep
    cases hany : anyOfMatchesNext l1 [Token.AND, Token.OR, Token.XOR] with
    | some sp => rw [hany] at hstep; exact absurd hstep (by simp)
    | none =>
      rw [hany] at hstep
      simp only [Except.ok.injEq] at hstep
      have hany' := anyOf_paren_none src src' spn hmatch
        [Token.AND, Token.OR, Token.XOR] (by decide) hany
      subst hstep
      have houter : stepToken src' Token.LPAREN sb (l2 ++ [(Token.RPAREN, spn)]) st' =
          .ok { st' with
                stack := (Token.LPAREN, sb) :: st'.stack,
                prevToken := some Token.LPAREN } := by
        simp only [stepToken, hany']
      refine ⟨_, houter, ?_⟩
      refine ⟨⟨(Token.LPAREN, sb) :: stk, by simp [hstk],
        List.Forall₂.cons rfl hfor⟩, by simp [hres], by simp [hvars],
        by simp [hmap], by simp [hnid], by simp⟩
  case RPAREN =>
    simp only [stepToken] at hstep
    cases hpop : popUntilLParen st.stack st.res with
    | none => rw [hpop] at hstep; exact absurd hstep (by simp)
    | some s1 =>
      rw [hpop] at hstep
      obtain ⟨xs2, r⟩ := s1
      cases hany : anyOfMatchesNext l1 [Token.IDENT, Token.NOT, Token.LPAREN] with
      | some sp => rw [hany] at hstep; exact absurd hstep (by simp)
      | none =>
        rw [hany] at hstep
        simp only [Except.ok.injEq] at hstep
        have hany' := anyOf_paren_none src src' spn hmatch
          [Token.IDENT, Token.NOT, Token.LPAREN] (by decide) hany
        obtain ⟨ys2, hy1, hy2⟩ :=
          popUntilLParen_stackMatch sp0 hfor st.res r xs2 hpop
        subst hstep
        have houter : stepToken src' Token.RPAREN sb (l2 ++ [(Token.RPAREN, spn)]) st' =
            .ok { st' with
                  stack := ys2 ++ [(Token.LPAREN, sp0)],
                  res := r,
                  prevToken := some Token.RPAREN } := by
          simp only [stepToken, hstk, hres, hy1, hany']
        refine ⟨_, houter, ?_⟩
        exact ⟨⟨ys2, by simp, hy2⟩, by simp, by simp [hvars], by simp [hmap],
          by simp [hnid], by simp⟩
  case Error => exact absurd rfl herr

/-- The parse of `E` inside an enclosing parenthesis: if the inner run
accepts, the outer run consumes the closing `RPAREN` and accepts with the
same output and variable list. -/
theorem parseLoop_paren (src src' : List Char) (sp0 spn : Span) :
    ∀ {ts ts' : List (Token × Span)},
      List.Forall₂ (TokMatch src src') ts ts' →
      ∀ (st st' stf : ParseState),
      StRel sp0 st st' →
      parseLoop src ts st = .ok stf →
      ∃ stf', parseLoop src' (ts' ++ [(Token.RPAREN, spn)]) st' = .ok stf' ∧
        stf'.res = stf.res ∧ stf'.vars = stf.vars := by
  intro ts ts' hmatch
  induction hmatch with
  | nil =>
    intro st st' stf hrel hok
    obtain ⟨⟨stk, hstk, hfor⟩, hres, hvars, hmap, hnid, hprev⟩ := hrel
    cases hd : drainStack st.stack st.res with
    | error e =>
      simp only [parseLoop, hd] at hok
      exact absurd hok (by simp)
    | ok r =>
      simp only [parseLoop, hd, Except.ok.injEq] at hok
      obtain ⟨hall, hr⟩ := drainStack_ok st.stack st.res r hd
      have hallstk : ∀ p ∈ stk, p.1 ≠ Token.LPAREN := by
        intro p hp
        have hmf := forall₂_stackMatch_map_fst hfor
        have hmem : p.1 ∈ st.stack.map Prod.fst := by
          rw [hmf]; exact List.mem_map_of_mem _ hp
        obtain ⟨q, hq, hq2⟩ := List.mem_map.mp hmem
        rw [← hq2]; exact hall q hq
      have hmapop : stk.map (fun p => BooleanExpressionToken.OPERATOR p.1) =
          st.stack.map (fun p => BooleanExpressionToken.OPERATOR p.1) := by
        have hmf := forall₂_stackMatch_map_fst hfor
        calc stk.map (fun p => BooleanExpressionToken.OPERATOR p.1)
            = (stk.map Prod.fst).map BooleanExpressionToken.OPERATOR := by
              rw [List.map_map]; rfl
          _ = (st.stack.map Prod.fst).map BooleanExpressionToken.OPERATOR := by
              rw [hmf]
          _ = st.stack.map (fun p => BooleanExpressionToken.OPERATOR p.1) := by
              rw [List.map_map]; rfl
      have hpop : popUntilLParen st'.stack st'.res =
          some ([], st.res ++
            stk.map (fun p => BooleanExpressionToken.OPERATOR p.1)) := by
        rw [hstk, hres]
        exact popUntilLParen_sentinel sp0 stk st.res hallstk
      have houter : parseLoop src' ([] ++ [(Token.RPAREN, spn)]) st' = .ok
          { st' with
            stack := [],
            res := st.res ++ stk.map (fun p => BooleanExpressionToken.OPERATOR p.1),
            prevToken := some Token.RPAREN } := by
        rw [List.nil_append,
           parseLoop_cons src' Token.RPAREN spn [] st' (by decide)]
        simp only [stepToken, hpop, anyOfMatchesNext, parseLoop, drainStack]
      refine ⟨_, houter, ?_, ?_⟩
      · simp only [← hok, hr, hmapop]
      · simp [← hok, hvars]
  | cons h1 h2 ih =>
    rename_i a b l1 l2
    obtain ⟨ta, sa⟩ := a
    obtain ⟨tb, sb⟩ := b
    have hab : ta = tb := h1.1
    subst hab
    have hslice : sourceSlice src sa = sourceSlice src' sb := h1.2
    intro st st' stf hrel hok
    by_cases herr : ta = Token.Error
    · subst herr
      simp [parseLoop] at hok
    · rw [parseLoop_cons src ta sa l1 st herr] at hok
      cases hstep : stepToken src ta sa l1 st with
      | error e => rw [hstep] at hok; exact absurd hok (by simp)
      | ok st1 =>
        rw [hstep] at hok
        obtain ⟨st1', hstep', hrel'⟩ := stepToken_paren src src' sp0 spn ta sa sb
          l1 l2 st st' st1 herr hslice h2 hrel hstep
        obtain ⟨stf', hloop', hres', hvars'⟩ := ih st1 st1' stf hrel' hok
        refine ⟨stf', ?_, hres', hvars'⟩
        rw [List.cons_append,
           parseLoop_cons src' ta sb (l2 ++ [(Token.RPAREN, spn)]) st' herr,
           hstep']
        exact hloop'

/-- An accepted parse from the initial state cannot start with a binary
operator (the missing left-hand-side check fires). -/
theorem parseLoop_ok_first_not_binary (src : List Char) (t : Token) (sp : Span)
    (rest : List (Token × Span)) (stf : ParseState)
    (hok : parseLoop src ((t, sp) :: rest) initState = .ok stf) :
    ¬(t = Token.AND ∨ t = Token.OR ∨ t = Token.XOR) := by
  intro hcon
  rcases hcon with h | h | h <;>
    (subst h
     rw [parseLoop_cons src _ sp rest initState (by decide),
        stepToken_operator src _ sp rest initState (by decide)] at hok
     simp [initState, Token.is_binary_operator] at hok)

/-- C6: parenthesization is transparent: for every source text the parser
accepts, wrapping the text in parentheses parses to the same RPN sequence
and the same variable list. -/
theorem paren_transparent (s : List Char)
    (res : List BooleanExpressionToken) (vars : List (List Char))
    (h : Parser.parse s = .ok (res, vars)) :
    Parser.parse ('(' :: (s ++ [')'])) = .ok (res, vars) := by
  unfold Parser.parse at h ⊢
  cases hloop : parseLoop s (lex s 0) initState with
  | error e => rw [hloop] at h; exact absurd h (by simp)
  | ok stf =>
    rw [hloop] at h
    simp only [Except.ok.injEq, Prod.mk.injEq] at h
    obtain ⟨hres, hvars⟩ := h
    have hshift : lex s 1 = (lex s 0).map (shiftTok 1) := by
      have hs := lex_shift s.length s le_rfl 1 0
      simpa using hs
    have happend : lex (s ++ [')']) 1 =
        lex s 1 ++ [(Token.RPAREN, ⟨1 + s.length, 1 + s.length + 1⟩)] :=
      lex_append_rparen s.length s le_rfl 1
    have hlex : lex ('(' :: (s ++ [')'])) 0 =
        (Token.LPAREN, ⟨0, 1⟩) ::
          ((lex s 0).map (shiftTok 1) ++
            [(Token.RPAREN, ⟨1 + s.length, 1 + s.length + 1⟩)]) := by
      rw [lex_cons,
         if_neg (by decide), if_neg (by decide), if_neg (by decide),
         if_neg (by decide), if_pos rfl,
         show (0 : Nat) + 1 = 1 from rfl, happend, hshift]
    have hforall : List.Forall₂ (TokMatch s ('(' :: (s ++ [')'])))
        (lex s 0) ((lex s 0).map (shiftTok 1)) := by
      apply forall₂_map_of_forall
      intro p hp
      obtain ⟨hb1, hb2, hb3⟩ := lex_span_bounds s.length s le_rfl 0 p hp
      exact ⟨rfl,
        (sourceSlice_extend s p.2.start p.2.stop (by omega)).symm⟩
    have hanyfirst : anyOfMatchesNext
        ((lex s 0).map (shiftTok 1) ++
          [(Token.RPAREN, ⟨1 + s.length, 1 + s.length + 1⟩)])
        [Token.AND, Token.OR, Token.XOR] = none := by
      cases hl0 : lex s 0 with
      | nil => rfl
      | cons p rest0 =>
        obtain ⟨t0, sp0'⟩ := p
        have hnb : ¬(t0 = Token.AND ∨ t0 = Token.OR ∨ t0 = Token.XOR) := by
          rw [hl0] at hloop
          exact parseLoop_ok_first_not_binary s t0 sp0' rest0 stf hloop
        have hcont : [Token.AND, Token.OR, Token.XOR].contains t0 = false := by
          cases t0 <;> first | rfl | (exfalso; exact hnb (by simp))
        simp [anyOfMatchesNext, shiftTok, hcont]
        push_neg at hnb
        exact hnb
    have hfirstStep : stepToken ('(' :: (s ++ [')'])) Token.LPAREN ⟨0, 1⟩
        ((lex s 0).map (shiftTok 1) ++
          [(Token.RPAREN, ⟨1 + s.length, 1 + s.length + 1⟩)]) initState =
        .ok { initState with
              stack := [(Token.LPAREN, ⟨0, 1⟩)],
              prevToken := some Token.LPAREN } := by
      simp only [stepToken, hanyfirst]
      rfl
    have hrel0 : StRel (⟨0, 1⟩ : Span) initState
        { initState with
          stack := [(Token.LPAREN, ⟨0, 1⟩)],
          prevToken := some Token.LPAREN } :=
      ⟨⟨[], rfl, List.Forall₂.nil⟩, rfl, rfl, rfl, rfl, rfl⟩
    obtain ⟨stf', hloop', hres', hvars'⟩ :=
      parseLoop_paren s ('(' :: (s ++ [')'])) ⟨0, 1⟩
        ⟨1 + s.length, 1 + s.length + 1⟩ hforall initState _ stf hrel0 hloop
    rw [hlex,
       parseLoop_cons ('(' :: (s ++ [')'])) Token.LPAREN ⟨0, 1⟩ _ initState
         (by decide),
       hfirstStep]
    simp only [hloop', hres', hvars', hres, hvars]

theorem paren_transparent_witness :
    Parser.parse ('(' :: ("A && B".data ++ [')'])) =
      .ok ([BooleanExpressionToken.IDENT 0, .IDENT 1, .OPERATOR Token.AND],
           [['A'], ['B']]) :=
  paren_transparent "A && B".data
    [BooleanExpressionToken.IDENT 0, .IDENT 1, .OPERATOR Token.AND]
    [['A'], ['B']] rfl

/-- Position-indexed pairs `(name, id)` of a variable list, with ids
starting at `k`: the shape the parser's identifier map always has. -/
def enumPairs (k : Nat) : List (List Char) → List (List Char × Nat)
  | [] => []
  | v :: vs => (v, k) :: enumPairs (k + 1) vs

theorem enumPairs_append_single (s : List Char) :
    ∀ (vs : List (List Char)) (k : Nat),
      enumPairs k (vs ++ [s]) = enumPairs k vs ++ [(s, k + vs.length)] := by
  intro vs
  induction vs with
  | nil => intro k; simp [enumPairs]
  | cons v vs ih =>
    intro k
    have h : k + 1 + vs.length = k + (vs.length + 1) := by omega
    simp [enumPairs, ih (k + 1), h]

theorem enumPairs_keys : ∀ (vs : List (List Char)) (k : Nat),
    (enumPairs k vs).map Prod.fst = vs := by
  intro vs
  induction vs with
  | nil => intro k; rfl
  | cons v vs ih => intro k; simp [enumPairs, ih]

theorem enumPairs_ids : ∀ (vs : List (List Char)) (k : Nat),
    (enumPairs k vs).map Prod.snd = List.range' k vs.length := by
  intro vs
  induction vs with
  | nil => intro k; rfl
  | cons v vs ih => intro k; simp [enumPairs, ih, List.range'_succ]

theorem enumPairs_mem : ∀ (vs : List (List Char)) (k : Nat) (name : List Char) (id : Nat),
    (name, id) ∈ enumPairs k vs → k ≤ id ∧ vs[id - k]? = some name := by
  intro vs
  induction vs with
  | nil => intro k name id h; simp [enumPairs] at h
  | cons v vs ih =>
    intro k name id h
    simp only [enumPairs, List.mem_cons, Prod.mk.injEq] at h
    rcases h with ⟨h1, h2⟩ | h
    · subst h1; subst h2; simp
    · obtain ⟨hk, hg⟩ := ih (k + 1) name id h
      refine ⟨by omega, ?_⟩
      have he : id - k = (id - (k + 1)) + 1 := by omega
      rw [he]
      simpa using hg

theorem mapContains_false_not_mem (m : List (List Char × Nat)) (s : List Char)
    (h : mapContains m s = false) : s ∉ m.map Prod.fst := by
  simp only [mapContains, List.any_eq_false] at h
  intro hmem
  obtain ⟨p, hp, he⟩ := List.mem_map.mp hmem
  have hps := h p hp
  simp [he] at hps

/-- C5 invariant: the identifier map is exactly the variable list paired
with ids `0, 1, 2, …` in first-occurrence order, the variables are
distinct, and the next id to assign is the variable count. -/
def InternInv (st : ParseState) : Prop :=
  st.identMap = enumPairs 0 st.vars ∧ st.vars.Nodup ∧ st.nextId = st.vars.length

/-- A successful `stepToken` either leaves the interning fields untouched
or interns one fresh identifier with the next id. -/
theorem stepToken_ok_changes (src : List Char) (tok : Token) (span : Span)
    (rest : List (Token × Span)) (st st' : ParseState)
    (h : stepToken src tok span rest st = .ok st') :
    (st'.identMap = st.identMap ∧ st'.vars = st.vars ∧ st'.nextId = st.nextId) ∨
    (∃ s, mapContains st.identMap s = false ∧
      st'.identMap = st.identMap ++ [(s, st.nextId)] ∧
      st'.vars = st.vars ++ [s] ∧ st'.nextId = st.nextId + 1) := by
  cases tok
  case IDENT =>
    simp only [stepToken] at h
    split at h
    · exact absurd h (by simp)
    · by_cases hc : mapContains st.identMap (sourceSlice src span)
      · left
        simp only [hc, if_true] at h
        simp only [Except.ok.injEq] at h
        subst h
        exact ⟨rfl, rfl, rfl⟩
      · right
        refine ⟨sourceSlice src span, by simpa using hc, ?_⟩
        simp only [hc, if_false, Bool.false_eq_true] at h
        simp only [Except.ok.injEq] at h
        subst h
        exact ⟨rfl, rfl, rfl⟩
  case LPAREN =>
    simp only [stepToken] at h
    split at h
    · exact absurd h (by simp)
    · simp only [Except.ok.injEq] at h
      subst h
      exact Or.inl ⟨rfl, rfl, rfl⟩
  case RPAREN =>
    simp only [stepToken] at h
    split at h
    · exact absurd h (by simp)
    · split at h
      · exact absurd h (by simp)
      · simp only [Except.ok.injEq] at h
        subst h
        exact Or.inl ⟨rfl, rfl, rfl⟩
  all_goals
    simp only [stepToken] at h
    split at h
    · exact absurd h (by simp)
    · split at h
      · exact absurd h (by simp)
      · split at h
        · exact absurd h (by simp)
        · simp only [Except.ok.injEq] at h
          subst h
          exact Or.inl ⟨rfl, rfl, rfl⟩

theorem stepToken_preserves_intern (src : List Char) (tok : Token) (span : Span)
    (rest : List (Token × Span)) (st st' : ParseState)
    (hInv : InternInv st) (h : stepToken src tok span rest st = .ok st') :
    InternInv st' := by
  obtain ⟨hm, hnd, hid⟩ := hInv
  rcases stepToken_ok_changes src tok span rest st st' h with
    ⟨h1, h2, h3⟩ | ⟨s, hc, h1, h2, h3⟩
  · exact ⟨by rw [h1, h2, hm], by rw [h2]; exact hnd, by rw [h3, h2, hid]⟩
  · have hsnot : s ∉ st.vars := by
      have h4 := mapContains_false_not_mem st.identMap s hc
      rwa [hm, enumPairs_keys] at h4
    refine ⟨?_, ?_, ?_⟩
    · rw [h1, h2, hm, hid, enumPairs_append_single]
      simp
    · rw [h2]
      simp [List.nodup_append, hnd, hsnot]
    · rw [h3, h2, hid]
      simp

theorem parseLoop_preserves_intern (src : List Char) :
    ∀ (ts : List (Token × Span)) (st st' : ParseState),
      InternInv st → parseLoop src ts st = .ok st' → InternInv st' := by
  intro ts
  induction ts with
  | nil =>
    intro st st' hInv h
    simp only [parseLoop] at h
    split at h
    · exact absurd h (by simp)
    · simp only [Except.ok.injEq] at h
      subst h
      exact hInv
  | cons t rest ih =>
    intro st st' hInv h
    obtain ⟨tok, span⟩ := t
    by_cases herr : tok = Token.Error
    · subst herr; simp [parseLoop] at h
    · rw [parseLoop_cons src tok span rest st herr] at h
      cases hstep : stepToken src tok span rest st with
      | error e => rw [hstep] at h; exact absurd h (by simp)
      | ok stMid =>
        rw [hstep] at h
        exact ih stMid st'
          (stepToken_preserves_intern src tok span rest st stMid hInv hstep) h

/-! ## Claim theorems -/

/-- C9: for a fixed-width unsigned integer `x` and a position `pos`,
`get_bit` returns the bit `(x >> pos) & 1` (i.e. `x / 2 ^ pos % 2`) when
`pos` is strictly below the width, and returns `none` instead of erroring
when `pos` is out of range. -/
theorem get_bit_spec (w x pos : Nat) :
    (pos < w → get_bit w x pos = some (x / 2 ^ pos % 2)) ∧
    (¬ pos < w → get_bit w x pos = none) := by
  constructor
  · intro h
    simp [get_bit, h, Nat.shiftRight_eq_div_pow, Nat.and_one_is_mod]
  · intro h
    simp [get_bit, h]

theorem get_bit_spec_witness :
    get_bit 8 5 2 = some (5 / 2 ^ 2 % 2) ∧ get_bit 8 5 9 = none :=
  ⟨(get_bit_spec 8 5 2).1 (by decide), (get_bit_spec 8 5 9).2 (by decide)⟩

/-- C10: the parser accepts operand-free inputs: the empty input, an
all-whitespace input and `"()"` all compile to an empty RPN sequence and
an empty variable list, and the adjacency check after an `LPAREN` forbids
only `AND`, `OR` and `XOR`, so a following `RPAREN` is allowed. -/
theorem parse_operand_free :
    Parser.parse "".data = .ok ([], []) ∧
    Parser.parse " \t".data = .ok ([], []) ∧
    Parser.parse "()".data = .ok ([], []) ∧
    anyOfMatchesNext [(Token.RPAREN, ⟨1, 2⟩)] [Token.AND, Token.OR, Token.XOR] = none :=
  ⟨rfl, rfl, rfl, rfl⟩

/-- C1 (failing input): `parse` accepts `"A && ()"`, producing the RPN
sequence `[IDENT 0, OPERATOR AND]` in which `AND` has only one preceding
operand; the spec-side stack counter rejects it and the stack-machine
evaluation panics (models as `none`) instead of leaving one value. -/
theorem parse_accepts_malformed_rpn :
    Parser.parse "A && ()".data =
      .ok ([BooleanExpressionToken.IDENT 0, .OPERATOR Token.AND], [['A']]) ∧
    rpnStackCount [BooleanExpressionToken.IDENT 0, .OPERATOR Token.AND] = none ∧
    evaluate 1 128 0 [BooleanExpressionToken.IDENT 0, .OPERATOR Token.AND] = none :=
  ⟨rfl, rfl, rfl⟩

/-- C3: evaluating an `IDENT id` token pushes the assignment's bit at
position `variable_count - 1 - id`; concretely, `"A && B"` evaluates to
`0` on counter `0b10` and to `1` on counter `0b11`. -/
theorem evaluate_ident_bit :
    (∀ vc w x id (stack : List BooleanExpressionToken), id < vc → vc - 1 - id < w →
      evalStep vc w x stack (.IDENT id) =
        some (.RESULT ((x >>> (vc - 1 - id)) &&& 1) :: stack)) ∧
    Parser.parse "A && B".data =
      .ok ([BooleanExpressionToken.IDENT 0, .IDENT 1, .OPERATOR Token.AND],
           [['A'], ['B']]) ∧
    evaluate 2 128 2 [BooleanExpressionToken.IDENT 0, .IDENT 1, .OPERATOR Token.AND] =
      some 0 ∧
    evaluate 2 128 3 [BooleanExpressionToken.IDENT 0, .IDENT 1, .OPERATOR Token.AND] =
      some 1 := by
  refine ⟨?_, rfl, rfl, rfl⟩
  intro vc w x id stack h1 h2
  simp [evalStep, h1, get_bit, h2]

theorem evaluate_ident_bit_witness :
    evalStep 2 128 2 [] (.IDENT 0) =
      some [BooleanExpressionToken.RESULT ((2 >>> (2 - 1 - 0)) &&& 1)] :=
  evaluate_ident_bit.1 2 128 2 0 [] (by decide) (by decide)

/-- C4: processing an operator pops every stacked token whose precedence
(discriminant) is `<=` the current token's, never popping an `LPAREN`
marker (its discriminant exceeds every operator's), except that a current
`NOT` pops nothing; the precedence order is NOT < AND < OR < XOR, and
`"A && !B || C"` compiles to
`[IDENT 0, IDENT 1, NOT, AND, IDENT 2, OR]`. -/
theorem shunting_precedence :
    (∀ (stack : List (Token × Span)) (res : List BooleanExpressionToken),
        popOperators stack res Token.NOT = (stack, res)) ∧
    (∀ (stack : List (Token × Span)) (res : List BooleanExpressionToken) (tok : Token),
        tok = Token.AND ∨ tok = Token.OR ∨ tok = Token.XOR →
        popOperators stack res tok =
          (stack.dropWhile (fun p => tokLe p.1 tok),
           res ++ (stack.takeWhile (fun p => tokLe p.1 tok)).map
             (fun p => BooleanExpressionToken.OPERATOR p.1))) ∧
    (∀ tok, tok = Token.NOT ∨ tok = Token.AND ∨ tok = Token.OR ∨ tok = Token.XOR →
        tokLe Token.LPAREN tok = false) ∧
    (tokLe Token.NOT Token.AND = true ∧ tokLe Token.AND Token.OR = true ∧
     tokLe Token.OR Token.XOR = true ∧ tokLe Token.AND Token.NOT = false ∧
     tokLe Token.OR Token.AND = false ∧ tokLe Token.XOR Token.OR = false) ∧
    Parser.parse "A && !B || C".data =
      .ok ([BooleanExpressionToken.IDENT 0, .IDENT 1, .OPERATOR Token.NOT,
            .OPERATOR Token.AND, .IDENT 2, .OPERATOR Token.OR],
           [['A'], ['B'], ['C']]) := by
  refine ⟨popOperators_not, ?_, ?_, ⟨rfl, rfl, rfl, rfl, rfl, rfl⟩, rfl⟩
  · intro stack res tok htok
    have h : tok ≠ Token.NOT := by rcases htok with h | h | h <;> subst h <;> decide
    exact popOperators_eq_takeWhile tok h stack res
  · intro tok htok
    rcases htok with h | h | h | h <;> subst h <;> decide

/-- C2: for `1 ≤ N ≤ 30` distinct variables the driver enumerates exactly
the counters `0 .. 2^N - 1`, in increasing order, each exactly once, and
evaluates the compiled expression once per counter. -/
theorem driver_row_enumeration (res : List BooleanExpressionToken)
    (vars : List (List Char)) (h1 : 1 ≤ vars.length) (h30 : vars.length ≤ 30) :
    mainRows res vars =
      some ((List.range (2 ^ vars.length)).map
        fun i => (i, evaluate vars.length 128 i res)) ∧
    ((List.range (2 ^ vars.length)).map
        fun i => (i, evaluate vars.length 128 i res)).length = 2 ^ vars.length ∧
    List.Chain' (· < ·) (List.range (2 ^ vars.length)) ∧
    (∀ m, m < 2 ^ vars.length → (List.range (2 ^ vars.length)).count m = 1) ∧
    (∀ m, m ∈ List.range (2 ^ vars.length) → m < 2 ^ vars.length) := by
  have hn : 2 <<< (vars.length - 1) = 2 ^ vars.length := by
    rw [Nat.shiftLeft_eq]
    have h : vars.length - 1 + 1 = vars.length := by omega
    calc 2 * 2 ^ (vars.length - 1) = 2 ^ (vars.length - 1 + 1) := (pow_succ' 2 _).symm
      _ = 2 ^ vars.length := by rw [h]
  have hlt31 : 2 ^ vars.length < 2 ^ 31 :=
    Nat.pow_lt_pow_right (by norm_num) (by omega)
  have hlt32 : 2 ^ vars.length < 2 ^ 32 :=
    Nat.pow_lt_pow_right (by norm_num) (by omega)
  have hrc : rowCount vars.length = some (2 ^ vars.length) := by
    unfold rowCount
    rw [if_neg (by omega), if_neg (by omega)]
    simp only [hn, Nat.mod_eq_of_lt hlt32, if_pos hlt31]
  refine ⟨?_, ?_, ?_, ?_, ?_⟩
  · simp [mainRows, hrc]
  · simp
  · exact (List.pairwise_lt_range _).chain'
  · intro m hm
    exact List.count_eq_one_of_mem (List.nodup_range _) (List.mem_range.mpr hm)
  · intro m hm
    exact List.mem_range.mp hm

theorem driver_row_enumeration_witness :
    mainRows [BooleanExpressionToken.IDENT 0] [['A']] =
      some ((List.range (2 ^ [[('A' : Char)]].length)).map
        fun i => (i, evaluate [[('A' : Char)]].length 128 i
          [BooleanExpressionToken.IDENT 0])) ∧
    ((List.range (2 ^ [[('A' : Char)]].length)).map
        fun i => (i, evaluate [[('A' : Char)]].length 128 i
          [BooleanExpressionToken.IDENT 0])).length = 2 ^ [[('A' : Char)]].length ∧
    List.Chain' (· < ·) (List.range (2 ^ [[('A' : Char)]].length)) ∧
    (∀ m, m < 2 ^ [[('A' : Char)]].length →
      (List.range (2 ^ [[('A' : Char)]].length)).count m = 1) ∧
    (∀ m, m ∈ List.range (2 ^ [[('A' : Char)]].length) →
      m < 2 ^ [[('A' : Char)]].length) :=
  driver_row_enumeration [BooleanExpressionToken.IDENT 0] [['A']]
    (by decide) (by decide)

/-- C2 counterexample: the empty input compiles successfully with zero
distinct variables, but the driver's row bound panics (underflow of
`number_of_vars - 1`) instead of producing `2^0 = 1` row; and with 31
variables the `i32` bound `2 << 30` sign-extends under `as u128` to
`2^128 - 2^31` rows, not `2^31`. -/
theorem driver_row_enumeration_counterexample :
    Parser.parse "".data = .ok ([], []) ∧
    rowCount 0 = none ∧
    mainRows [] [] = none ∧
    rowCount 31 = some (2 ^ 128 - 2 ^ 31) ∧
    2 ^ 128 - 2 ^ 31 ≠ 2 ^ 31 :=
  ⟨rfl, rfl, rfl, rfl, by decide⟩

theorem shunting_precedence_witness :
    popOperators [(Token.NOT, Span.mk 0 1), (Token.AND, Span.mk 2 4)] [] Token.OR =
      ([(Token.NOT, Span.mk 0 1), (Token.AND, Span.mk 2 4)].dropWhile
         (fun p => tokLe p.1 Token.OR),
       [] ++ ([(Token.NOT, Span.mk 0 1), (Token.AND, Span.mk 2 4)].takeWhile
         (fun p => tokLe p.1 Token.OR)).map (fun p => BooleanExpressionToken.OPERATOR p.1)) :=
  shunting_precedence.2.1 [(Token.NOT, Span.mk 0 1), (Token.AND, Span.mk 2 4)] [] Token.OR
    (Or.inr (Or.inl rfl))

/-- C5: on every successful parse the identifier interning is stable and
dense: the final map's keys, in insertion (first-occurrence) order, are
exactly the variable list, its ids are exactly `0 .. variable_count - 1`
in that order, `variables[id] = name` for every interned pair, the
variables are pairwise distinct, and a name determines its id uniquely. -/
theorem intern_stable_dense (src : List Char) (st : ParseState)
    (h : parseLoop src (lex src 0) initState = .ok st) :
    (∀ name id, (name, id) ∈ st.identMap → st.vars[id]? = some name) ∧
    st.identMap.map Prod.fst = st.vars ∧
    st.identMap.map Prod.snd = List.range st.vars.length ∧
    st.vars.Nodup ∧
    (∀ name id1 id2, (name, id1) ∈ st.identMap → (name, id2) ∈ st.identMap →
      id1 = id2) := by
  have hInv : InternInv st :=
    parseLoop_preserves_intern src (lex src 0) initState st
      ⟨rfl, List.nodup_nil, rfl⟩ h
  obtain ⟨hm, hnd, -⟩ := hInv
  refine ⟨?_, ?_, ?_, hnd, ?_⟩
  · intro name id hmem
    rw [hm] at hmem
    have hg := (enumPairs_mem st.vars 0 name id hmem).2
    simpa using hg
  · rw [hm, enumPairs_keys]
  · rw [hm, enumPairs_ids, List.range_eq_range']
  · intro name id1 id2 h1 h2
    rw [hm] at h1 h2
    have g1 := (enumPairs_mem st.vars 0 name id1 h1).2
    have g2 := (enumPairs_mem st.vars 0 name id2 h2).2
    simp only [Nat.sub_zero] at g1 g2
    obtain ⟨hlt, -⟩ := List.getElem?_eq_some.mp g1
    exact List.getElem?_inj hlt hnd (g1.trans g2.symm)

theorem intern_stable_dense_witness :
    (∀ name id,
      (name, id) ∈ [((['A'] : List Char), 0), (['B'], 1)] →
      [(['A'] : List Char), ['B']][id]? = some name) ∧
    [((['A'] : List Char), 0), (['B'], 1)].map Prod.fst = [['A'], ['B']] ∧
    [((['A'] : List Char), 0), (['B'], 1)].map Prod.snd =
      List.range [(['A'] : List Char), ['B']].length ∧
    [(['A'] : List Char), ['B']].Nodup ∧
    (∀ name id1 id2, (name, id1) ∈ [((['A'] : List Char), 0), (['B'], 1)] →
      (name, id2) ∈ [((['A'] : List Char), 0), (['B'], 1)] → id1 = id2) :=
  intern_stable_dense "A && B || !A".data
    ⟨[], [.IDENT 0, .IDENT 1, .OPERATOR Token.AND, .IDENT 0,
         .OPERATOR Token.NOT, .OPERATOR Token.OR],
     [['A'], ['B']], [(['A'], 0), (['B'], 1)], 2, some Token.IDENT⟩ rfl

/-- C7: a token stream ending in an operator is always rejected, from any
parser state; and an operator that passes the left-hand-side check with no
following token reports "Missing right hand side of binary expression" at
the operator's own span. The last conjunct lifts the first to whole source
texts through the lexer. -/
theorem trailing_operator_rejected :
    (∀ (src : List Char) (ts : List (Token × Span)) (st : ParseState)
        (op : Token) (sp : Span),
      ts.getLast? = some (op, sp) →
      (op = Token.NOT ∨ op = Token.AND ∨ op = Token.OR ∨ op = Token.XOR) →
      ∃ e, parseLoop src ts st = .error e) ∧
    (∀ (src : List Char) (st : ParseState) (op : Token) (sp : Span),
      (op = Token.NOT ∨ op = Token.AND ∨ op = Token.OR ∨ op = Token.XOR) →
      (st.prevToken.isNone && op.is_binary_operator) = false →
      parseLoop src [(op, sp)] st =
        .error (sp, "Missing right hand side of binary expression")) ∧
    (∀ (src : List Char) (op : Token) (sp : Span),
      (lex src 0).getLast? = some (op, sp) →
      (op = Token.NOT ∨ op = Token.AND ∨ op = Token.OR ∨ op = Token.XOR) →
      ∃ e, Parser.parse src = .error e) := by
  refine ⟨parseLoop_last_operator_error, ?_, ?_⟩
  · intro src st op sp hop hbin
    have herr : ¬ op = Token.Error := by
      rcases hop with h | h | h | h <;> subst h <;> decide
    rw [parseLoop_cons src op sp [] st herr, stepToken_operator src op sp [] st hop]
    simp [hbin, anyOfMatchesNext]
  · intro src op sp hlast hop
    obtain ⟨e, he⟩ := parseLoop_last_operator_error src (lex src 0) initState op sp hlast hop
    exact ⟨e, by simp [Parser.parse, he]⟩

theorem trailing_operator_rejected_witness :
    parseLoop "A &&".data [(Token.AND, Span.mk 2 4)]
        { initState with prevToken := some Token.IDENT } =
      .error (Span.mk 2 4, "Missing right hand side of binary expression") :=
  trailing_operator_rejected.2.1 "A &&".data
    { initState with prevToken := some Token.IDENT } Token.AND (Span.mk 2 4)
    (Or.inr (Or.inl rfl)) rfl

/-- C8: an `IDENT` immediately followed by `IDENT`, `LPAREN` or `NOT` is
rejected — whenever the scan reaches the identifier, the error is reported
at the span of the following token — and the adjacency occurring anywhere
makes the whole parse fail; concretely `"A B"` fails at the second
identifier's span `[2, 3)`. -/
theorem ident_adjacency_rejected :
    (∀ (src : List Char) (st : ParseState) (sp : Span) (t2 : Token) (sp2 : Span)
        (rest : List (Token × Span)),
      (t2 = Token.IDENT ∨ t2 = Token.LPAREN ∨ t2 = Token.NOT) →
      parseLoop src ((Token.IDENT, sp) :: (t2, sp2) :: rest) st =
        .error (sp2, "Expected binary operator or right parenthesis.")) ∧
    (∀ (src : List Char) (ts : List (Token × Span)) (st : ParseState),
      (∃ i sp t2 sp2, ts.get? i = some (Token.IDENT, sp) ∧
        ts.get? (i + 1) = some (t2, sp2) ∧
        (t2 = Token.IDENT ∨ t2 = Token.LPAREN ∨ t2 = Token.NOT)) →
      ∃ e, parseLoop src ts st = .error e) ∧
    Parser.parse "A B".data =
      .error (Span.mk 2 3, "Expected binary operator or right parenthesis.") :=
  ⟨parseLoop_ident_adjacent, parseLoop_ident_adjacency_error, rfl⟩

theorem ident_adjacency_rejected_witness :
    parseLoop "A B".data [(Token.IDENT, Span.mk 0 1), (Token.IDENT, Span.mk 2 3)]
        initState =
      .error (Span.mk 2 3, "Expected binary operator or right parenthesis.") :=
  ident_adjacency_rejected.1 "A B".data initState (Span.mk 0 1) Token.IDENT
    (Span.mk 2 3) [] (Or.inl rfl)

end Batt
